import Mathlib

/-!
Verification of the arduino-radar sketch (src/arduino-radar.ino).

Shallow embedding: Arduino `float` values are modelled as `ℚ`; the
`NAN` invalid marker is modelled by `Option ℚ` with `none` standing
for NaN.  `pulseIn` durations (microseconds, `unsigned long`) are
modelled as `ℕ`, with `0` the timeout sentinel, exactly as in the
sketch.  Serial output is modelled as the list of emitted lines, and
the blocking/ordering behaviour of `measureAndPrintAtAngle` as a list
of events.
-/

namespace ArduinoRadar

/-- `PULSE_TIMEOUT_US = 20000UL` from the sketch. -/
def PULSE_TIMEOUT_US : ℕ := 20000

/-- `SETTLE_AFTER_MOVE_MS = 30` from the sketch. -/
def SETTLE_AFTER_MOVE_MS : ℕ := 30

/-- `MIN_PING_PERIOD_MS = 60` from the sketch. -/
def MIN_PING_PERIOD_MS : ℕ := 60

/-- `SOUND_CM_PER_US = 0.0343f` from the sketch, as an exact rational. -/
def SOUND_CM_PER_US : ℚ := 343 / 10000

/-- Embedding of `pingOnce`.  The argument `dur` is the value `pulseIn`
wrote into `dur` (0 on timeout).  Returns `none` where the sketch
returns `NAN`. -/
def pingOnce (dur : ℕ) : Option ℚ :=
  if dur = 0 then none
  else
    let d : ℚ := ((dur : ℚ) * SOUND_CM_PER_US) / 2
    if 400 < d then none else some d

/-- One step of the insertion sort inside `median3_ignoreNaN`: insert
`key` into the already-sorted prefix, shifting every element strictly
greater than `key` to the right (`while (j>=0 && v[j]>key)`), so `key`
lands after all elements `≤ key`. -/
def insertAsc (key : ℚ) : List ℚ → List ℚ
  | [] => [key]
  | y :: ys => if key < y then key :: y :: ys else y :: insertAsc key ys

/-- The sketch's `for (i=1;i<n;i++)` insertion sort: fold the samples
left to right, inserting each into the sorted accumulator. -/
def insertionSort (l : List ℚ) : List ℚ :=
  l.foldl (fun acc x => insertAsc x acc) []

/-- Embedding of `median3_ignoreNaN`: collect the non-NaN inputs in
order (`if (!isnan(a)) v[n++] = a;` ...), return NaN if none remain,
otherwise sort ascending and return `v[n/2]`. -/
def median3_ignoreNaN (a b c : Option ℚ) : Option ℚ :=
  let v : List ℚ := List.filterMap id [a, b, c]
  if v.length = 0 then none
  else (insertionSort v)[v.length / 2]?

/-- Embedding of the two-fraction-digit part of `Serial.println(x, 2)`
(Arduino `Print::printFloat` prints each fraction digit separately, so
a leading zero is kept). -/
def twoFrac (m : ℕ) : String :=
  if m < 10 then "0" ++ toString m else toString m

/-- Embedding of `Serial.println(x, 2)` for a non-negative value:
Arduino `Print::printFloat` adds a rounding term `0.5 / 10^2`, prints
the integer part, a dot, then two fraction digits. -/
def format2 (q : ℚ) : String :=
  let n : ℕ := (⌊q * 100 + 1 / 2⌋).toNat
  toString (n / 100) ++ "." ++ twoFrac (n % 100)

/-- The single CSV line printed by `measureAndPrintAtAngle` for a given
angle, when the three `pulseIn` results are `u1 u2 u3`:
`Serial.print(angle); Serial.print(','); NA or two-decimal value`. -/
def reportLine (angle u1 u2 u3 : ℕ) : String :=
  let dmed := median3_ignoreNaN (pingOnce u1) (pingOnce u2) (pingOnce u3)
  toString angle ++ "," ++
    (match dmed with
     | none => "NA"
     | some d => format2 d)

/-- The serial output of one `measureAndPrintAtAngle` call: exactly the
one CSV line. -/
def measureAndPrintAtAngle (angle u1 u2 u3 : ℕ) : List String :=
  [reportLine angle u1 u2 u3]

/-- Events observable in one `measureAndPrintAtAngle` call, in program
order: servo command, blocking `delay`, one `pingOnce` (with the
`pulseIn` result it observed), serial line emission. -/
inductive Ev
  | move (a : ℕ)
  | wait (ms : ℕ)
  | sample (u : ℕ)
  | emit (line : String)
deriving DecidableEq

/-- The event trace of `measureAndPrintAtAngle`:
`servoMotor.write(angle); delay(30); ping; delay(10); ping; delay(10);
ping; print line; delay(60)`. -/
def measureTrace (angle u1 u2 u3 : ℕ) : List Ev :=
  [Ev.move angle, Ev.wait SETTLE_AFTER_MOVE_MS,
   Ev.sample u1, Ev.wait 10, Ev.sample u2, Ev.wait 10, Ev.sample u3,
   Ev.emit (reportLine angle u1 u2 u3), Ev.wait MIN_PING_PERIOD_MS]

/-- The angles visited by one iteration of `loop()`:
`for (a = 0; a <= 180; ++a)` then `for (a = 180; a >= 0; --a)`. -/
def cycleAngles : List ℕ :=
  List.range 181 ++ (List.range 181).reverse

/-- The angle visited at step `k` of the infinite sweep (the body of
`loop()` repeats forever, 362 visits per iteration). -/
def sweepAngle (k : ℕ) : ℕ :=
  cycleAngles.getD (k % 362) 0

/-- Modelled from the spec sentence "A full sweep visits angle sequence
0,1,2,...,180,179,...,1,0,1,2,... indefinitely": that sequence is
periodic with period 360 and visits each boundary angle once per
reversal. -/
def claimedSweepAngle (k : ℕ) : ℕ :=
  if k % 360 ≤ 180 then k % 360 else 360 - k % 360

/-- The serial output of one `loop()` iteration, where `d k` gives the
three `pulseIn` results observed at visit number `k` of the iteration. -/
def loopCycleOutput (d : ℕ → ℕ × ℕ × ℕ) : List String :=
  (cycleAngles.enum.map
    (fun p => measureAndPrintAtAngle p.2 (d p.1).1 (d p.1).2.1 (d p.1).2.2)).flatten

/-! ## Helper lemmas about the insertion sort -/

theorem perm_insertAsc (x : ℚ) (l : List ℚ) : (insertAsc x l).Perm (x :: l) := by
  induction l with
  | nil => simp [insertAsc]
  | cons y ys ih =>
    rw [insertAsc]
    split_ifs with h
    · exact List.Perm.refl _
    · exact (ih.cons y).trans (List.Perm.swap x y ys)

theorem sorted_insertAsc (x : ℚ) (l : List ℚ) (h : l.Sorted (· ≤ ·)) :
    (insertAsc x l).Sorted (· ≤ ·) := by
  induction l with
  | nil => simp [insertAsc]
  | cons y ys ih =>
    rw [insertAsc]
    rw [List.sorted_cons] at h
    split_ifs with hxy
    · rw [List.sorted_cons]
      refine ⟨?_, List.sorted_cons.2 h⟩
      intro b hb
      rcases List.mem_cons.1 hb with hb | hb
      · exact hb ▸ hxy.le
      · exact hxy.le.trans (h.1 b hb)
    · rw [List.sorted_cons]
      refine ⟨?_, ih h.2⟩
      intro b hb
      have := (perm_insertAsc x ys).mem_iff.1 hb
      rcases List.mem_cons.1 this with hb' | hb'
      · exact hb' ▸ not_lt.1 hxy
      · exact h.1 b hb'

theorem perm_foldl_insertAsc (l acc : List ℚ) :
    (l.foldl (fun acc x => insertAsc x acc) acc).Perm (l ++ acc) := by
  induction l generalizing acc with
  | nil => simp
  | cons x xs ih =>
    simp only [List.foldl_cons, List.cons_append]
    exact ((ih (insertAsc x acc)).trans
      (((perm_insertAsc x acc).append_left xs).trans List.perm_middle))

theorem perm_insertionSort (l : List ℚ) : (insertionSort l).Perm l := by
  simpa using perm_foldl_insertAsc l []

theorem sorted_foldl_insertAsc (l acc : List ℚ) (h : acc.Sorted (· ≤ ·)) :
    (l.foldl (fun acc x => insertAsc x acc) acc).Sorted (· ≤ ·) := by
  induction l generalizing acc with
  | nil => simpa
  | cons x xs ih => exact ih _ (sorted_insertAsc x acc h)

theorem sorted_insertionSort (l : List ℚ) : (insertionSort l).Sorted (· ≤ ·) :=
  sorted_foldl_insertAsc l [] (by simp)

theorem twoFrac_length : ∀ m, m < 100 → (twoFrac m).length = 2 := by decide

set_option maxHeartbeats 1000000 in
set_option maxRecDepth 4000 in
theorem sweepAngle_ball :
    ∀ k, k < 362 → sweepAngle k = (if k ≤ 180 then k else 361 - k) := by decide

/-! ## Claim theorems -/

/-- C1: when exactly two of the three samples given to the Filter are
valid, with valid values `a ≤ b`, the Filter returns `b` (the larger,
the element at index `⌊n/2⌋ = 1` of the ascending-sorted valid values),
never the arithmetic mean and never the smaller value.  The hypothesis
`h` says precisely that the valid inputs, kept in order, are the pair
`a, b` in one of its two arrangements. -/
theorem filter_two_valid (x y z : Option ℚ) (a b : ℚ) (hab : a ≤ b)
    (h : List.filterMap id [x, y, z] = [a, b] ∨ List.filterMap id [x, y, z] = [b, a]) :
    median3_ignoreNaN x y z = some b ∧
      (a < b → median3_ignoreNaN x y z ≠ some ((a + b) / 2) ∧
        median3_ignoreNaN x y z ≠ some a) := by
  have hmain : median3_ignoreNaN x y z = some b := by
    unfold median3_ignoreNaN
    rcases h with h | h <;> rw [h]
    · simp only [List.length_cons, List.length_nil]
      norm_num
      rw [insertionSort]
      simp only [List.foldl_cons, List.foldl_nil, insertAsc]
      rw [if_neg (not_lt.2 hab)]
      rfl
    · simp only [List.length_cons, List.length_nil]
      norm_num
      rw [insertionSort]
      simp only [List.foldl_cons, List.foldl_nil, insertAsc]
      rcases lt_or_eq_of_le hab with hlt | heq
      · rw [if_pos hlt]; rfl
      · subst heq; split_ifs <;> rfl
  refine ⟨hmain, fun hlt => ⟨?_, ?_⟩⟩
  · rw [hmain]
    intro hc
    have : b = (a + b) / 2 := Option.some_injective ℚ hc
    linarith
  · rw [hmain]
    intro hc
    have : b = a := Option.some_injective ℚ hc
    exact absurd this.symm (ne_of_lt hlt)

/-- Witness for C1 at the spec's own example `Filter(10.0, NA, 30.0)`:
the result is `30`, not the mean `20` and not the smaller value `10`. -/
theorem filter_two_valid_witness :
    median3_ignoreNaN (some 10) none (some 30) = some 30 ∧
      median3_ignoreNaN (some 10) none (some 30) ≠ some 20 ∧
      median3_ignoreNaN (some 10) none (some 30) ≠ some 10 := by
  have h := filter_two_valid (some 10) none (some 30) 10 30 (by norm_num)
    (Or.inl (by decide))
  refine ⟨h.1, ?_, (h.2 (by norm_num)).2⟩
  have := (h.2 (by norm_num)).1
  norm_num at this
  exact this

/-- C2: for three valid input samples `p, q, r`, the Filter returns the
true median: the middle element `b` of the ascending sorted arrangement
`[a, b, c]` of the three values. -/
theorem filter_three_valid (p q r : ℚ) :
    ∃ a b c : ℚ, a ≤ b ∧ b ≤ c ∧ ([a, b, c] : List ℚ).Perm [p, q, r] ∧
      median3_ignoreNaN (some p) (some q) (some r) = some b := by
  have hperm := perm_insertionSort [p, q, r]
  have hsort := sorted_insertionSort [p, q, r]
  have hlen : (insertionSort [p, q, r]).length = 3 := by
    rw [hperm.length_eq]; rfl
  match hs : insertionSort [p, q, r], hlen with
  | [a, b, c], _ =>
    rw [hs] at hperm hsort
    rw [List.sorted_cons, List.sorted_cons] at hsort
    refine ⟨a, b, c, hsort.1 b (by simp), hsort.2.1 c (by simp), hperm, ?_⟩
    unfold median3_ignoreNaN
    have hv : List.filterMap id [some p, some q, some r] = [p, q, r] := by simp
    rw [hv]
    simp only [List.length_cons, List.length_nil]
    norm_num
    rw [hs]
    rfl

/-- C3: for every observed echo duration `d > 0`, the Ranger computes
`distance = (d * 0.0343) / 2` centimeters; if that distance exceeds
400 cm it returns invalid even though a duration was observed, and
otherwise it returns the computed distance. -/
theorem pingOnce_observed (d : ℕ) (hd : 0 < d) :
    pingOnce d = if 400 < (d : ℚ) * (343 / 10000) / 2 then none
                 else some ((d : ℚ) * (343 / 10000) / 2) := by
  unfold pingOnce SOUND_CM_PER_US
  rw [if_neg (Nat.pos_iff_ne_zero.1 hd)]

/-- Witness for C3: duration 30000 µs gives 514.5 cm > 400 cm, hence
invalid; duration 700 µs gives 12.005 cm = 2401/200 cm, returned. -/
theorem pingOnce_observed_witness :
    pingOnce 30000 = none ∧ pingOnce 700 = some (2401 / 200) := by
  have h1 := pingOnce_observed 30000 (by norm_num)
  have h2 := pingOnce_observed 700 (by norm_num)
  rw [h1, h2]
  norm_num

/-- C4: whenever the pulse-echo measurement times out (`pulseIn` returns
the 0 sentinel), the Ranger returns invalid rather than a distance. -/
theorem pingOnce_timeout_invalid : pingOnce 0 = none := rfl

/-- C5: when all three samples given to the Filter are invalid, the
Filter returns no data. -/
theorem filter_all_invalid_no_data :
    median3_ignoreNaN none none none = none := rfl

/-- C6 counterexample: the sweep implemented by `loop()` visits angle
180 at both step 180 and step 181, while the claimed sequence
`0,1,...,180,179,...,1,0,1,...` has 179 at step 181; so the program
does not visit exactly the claimed sequence. -/
theorem sweep_seq_cex :
    sweepAngle 180 = 180 ∧ sweepAngle 181 = 180 ∧
    claimedSweepAngle 180 = 180 ∧ claimedSweepAngle 181 = 179 ∧
    sweepAngle 181 ≠ claimedSweepAngle 181 := by decide

/-- C6 amended: the infinite sweep repeats a 362-visit cycle
`0,1,...,180` then `180,179,...,0`: within each directional pass the
angle steps by 1 with no angle skipped or repeated, and each boundary
angle (180 and 0) is visited again as the first step of the opposite
pass. -/
theorem sweep_amended :
    (∀ k : ℕ, k ≤ 180 → sweepAngle k = k) ∧
    (∀ k : ℕ, 181 ≤ k → k ≤ 361 → sweepAngle k = 361 - k) ∧
    (∀ k : ℕ, sweepAngle (k + 362) = sweepAngle k) := by
  refine ⟨?_, ?_, ?_⟩
  · intro k hk
    have := sweepAngle_ball k (by omega)
    rwa [if_pos hk] at this
  · intro k hk1 hk2
    have := sweepAngle_ball k (by omega)
    rwa [if_neg (by omega)] at this
  · intro k
    unfold sweepAngle
    rw [Nat.add_mod_right]

/-- Witness for the amended C6 at concrete sweep steps. -/
theorem sweep_amended_witness :
    sweepAngle 5 = 5 ∧ sweepAngle 200 = 161 ∧ sweepAngle 363 = sweepAngle 1 :=
  ⟨sweep_amended.1 5 (by norm_num),
   sweep_amended.2.1 200 (by norm_num) (by norm_num),
   sweep_amended.2.2 1⟩

/-- C7: for every visited angle (an integer in [0,180]) and any three
`pulseIn` results, the program emits exactly one report line of the
form `<angle>,<value>`, where `<value>` is either the literal `NA` or
the filtered distance printed with exactly two fraction digits; a line
is emitted even when the filter yields no data. -/
theorem report_line_format (angle : ℕ) (_ha : angle ≤ 180) (u1 u2 u3 : ℕ) :
    (measureAndPrintAtAngle angle u1 u2 u3).length = 1 ∧
    ∃ v : String, measureAndPrintAtAngle angle u1 u2 u3 = [toString angle ++ "," ++ v] ∧
      (v = "NA" ∨
        ∃ ip fp : ℕ, fp < 100 ∧ v = toString ip ++ "." ++ twoFrac fp ∧
          (twoFrac fp).length = 2) := by
  refine ⟨rfl, ?_⟩
  unfold measureAndPrintAtAngle reportLine
  cases hmed : median3_ignoreNaN (pingOnce u1) (pingOnce u2) (pingOnce u3) with
  | none => exact ⟨"NA", rfl, Or.inl rfl⟩
  | some d =>
    refine ⟨format2 d, rfl, Or.inr ?_⟩
    have hfp : (⌊d * 100 + 1 / 2⌋).toNat % 100 < 100 := Nat.mod_lt _ (by norm_num)
    exact ⟨(⌊d * 100 + 1 / 2⌋).toNat / 100, (⌊d * 100 + 1 / 2⌋).toNat % 100, hfp,
      rfl, twoFrac_length _ hfp⟩

/-- Witness for C7 at angle 45 with durations 700, 0 (timeout), 729. -/
theorem report_line_format_witness :
    (measureAndPrintAtAngle 45 700 0 729).length = 1 ∧
    ∃ v : String, measureAndPrintAtAngle 45 700 0 729 = [toString 45 ++ "," ++ v] ∧
      (v = "NA" ∨
        ∃ ip fp : ℕ, fp < 100 ∧ v = toString ip ++ "." ++ twoFrac fp ∧
          (twoFrac fp).length = 2) :=
  report_line_format 45 (by norm_num) 700 0 729

/-- C8: the measure-and-report operation performs, in this exact order:
move to the angle, wait 30 ms, sample, wait 10 ms, sample, wait 10 ms,
sample, emit the report line, wait 60 ms; and across two consecutive
angles the 60 ms cadence wait and the next angle's 30 ms settle wait
both occur, back to back, not merged. -/
theorem measure_trace_order (a u1 u2 u3 a' u1' u2' u3' : ℕ) :
    measureTrace a u1 u2 u3 ++ measureTrace a' u1' u2' u3' =
      [Ev.move a, Ev.wait 30,
       Ev.sample u1, Ev.wait 10, Ev.sample u2, Ev.wait 10, Ev.sample u3,
       Ev.emit (reportLine a u1 u2 u3), Ev.wait 60,
       Ev.move a', Ev.wait 30,
       Ev.sample u1', Ev.wait 10, Ev.sample u2', Ev.wait 10, Ev.sample u3',
       Ev.emit (reportLine a' u1' u2' u3'), Ev.wait 60] := rfl

/-- C9: for every combination of valid and invalid inputs, the Filter's
result is either no data or one of its valid input distances — never a
value (average, interpolation, stale) absent from the inputs. -/
theorem filter_among_inputs (x y z : Option ℚ) :
    median3_ignoreNaN x y z = none ∨
      ∃ d : ℚ, median3_ignoreNaN x y z = some d ∧
        (x = some d ∨ y = some d ∨ z = some d) := by
  unfold median3_ignoreNaN
  set v := List.filterMap id [x, y, z] with hv
  by_cases h0 : v.length = 0
  · left; rw [if_pos h0]
  · right
    rw [if_neg h0]
    have hlen : (insertionSort v).length = v.length := (perm_insertionSort v).length_eq
    have hlt : v.length / 2 < (insertionSort v).length := by
      rw [hlen]
      exact Nat.div_lt_of_lt_mul (by omega)
    refine ⟨(insertionSort v)[v.length / 2], List.getElem?_eq_getElem hlt, ?_⟩
    have hmem : (insertionSort v)[v.length / 2] ∈ v :=
      (perm_insertionSort v).mem_iff.1 (List.getElem_mem hlt)
    have hmem' : (insertionSort v)[v.length / 2] ∈ List.filterMap id [x, y, z] := hmem
    rcases List.mem_filterMap.1 hmem' with ⟨o, ho, hid⟩
    simp only [id] at hid
    subst hid
    rcases List.mem_cons.1 ho with h | ho
    · exact Or.inl h.symm
    rcases List.mem_cons.1 ho with h | ho
    · exact Or.inr (Or.inl h.symm)
    rcases List.mem_cons.1 ho with h | ho
    · exact Or.inr (Or.inr h.symm)
    · simp at ho

set_option maxRecDepth 4000 in
/-- C10: each `loop()` iteration emits exactly 362 report lines, and the
boundary angles are reported twice in immediate succession: the lines
at positions 180 and 181 both report angle 180 (end of the ascending
pass, start of the descending pass), the line at position 361 reports
angle 0, and the next iteration starts again at angle 0. -/
theorem boundary_reported_twice (d : ℕ → ℕ × ℕ × ℕ) :
    (loopCycleOutput d).length = 362 ∧
    (loopCycleOutput d)[180]? = some (reportLine 180 (d 180).1 (d 180).2.1 (d 180).2.2) ∧
    (loopCycleOutput d)[181]? = some (reportLine 180 (d 181).1 (d 181).2.1 (d 181).2.2) ∧
    (loopCycleOutput d)[361]? = some (reportLine 0 (d 361).1 (d 361).2.1 (d 361).2.2) ∧
    (loopCycleOutput d)[0]? = some (reportLine 0 (d 0).1 (d 0).2.1 (d 0).2.2) ∧
    sweepAngle 362 = 0 := by
  have hflat : loopCycleOutput d =
      cycleAngles.enum.map (fun p => reportLine p.2 (d p.1).1 (d p.1).2.1 (d p.1).2.2) := by
    unfold loopCycleOutput measureAndPrintAtAngle
    induction cycleAngles.enum with
    | nil => rfl
    | cons x xs ih => simp only [List.map_cons, List.flatten_cons, ih]; rfl
  have h180 : cycleAngles[(180:ℕ)]? = some 180 := by decide
  have h181 : cycleAngles[(181:ℕ)]? = some 180 := by decide
  have h361 : cycleAngles[(361:ℕ)]? = some 0 := by decide
  have h0 : cycleAngles[(0:ℕ)]? = some 0 := by decide
  rw [hflat]
  refine ⟨?_, ?_, ?_, ?_, ?_, by decide⟩
  · rw [List.length_map, List.enum_length]
    decide
  · rw [List.getElem?_map, List.getElem?_enum, h180]
    rfl
  · rw [List.getElem?_map, List.getElem?_enum, h181]
    rfl
  · rw [List.getElem?_map, List.getElem?_enum, h361]
    rfl
  · rw [List.getElem?_map, List.getElem?_enum, h0]
    rfl

end ArduinoRadar
